import Mathlib

set_option maxRecDepth 200000

/-!
Shallow embedding of `src/main.c` ("toothpaste" binary-to-decimal conversion).

The C program converts a 32-bit unsigned integer to its decimal digit string
without division: it adds precomputed decimal expansions of powers of two
(one per set bit) into a 10-byte accumulator without carrying, then performs
a single right-to-left carry pass driven by quotient/remainder lookup tables.

Machine integers are modelled as `Nat` with explicit `% 2^w` where overflow
matters; the `fullDecimal32_t` union's two views (ten digit bytes vs. one
`uint64_t` plus one `uint16_t`) are modelled by little-endian byte
(de)composition of the digit list.
-/

namespace Toothpaste

/-- The `fullDecimal32_t` union, viewed through its `digits` member:
ten byte-sized digit slots, most significant first. -/
structure FullDecimal32 where
  digits : List Nat
deriving Repr, DecidableEq

/-- Little-endian recomposition of a byte list into a machine word,
modelling how the union overlays an integer on top of the digit bytes. -/
def natOfBytes (l : List Nat) : Nat := l.foldr (fun b acc => b + 256 * acc) 0

/-- Little-endian decomposition of a machine word into `w` bytes. -/
def bytesOfNat : Nat → Nat → List Nat
  | 0, _ => []
  | w + 1, n => n % 256 :: bytesOfNat w (n / 256)

/-- The union member `arith.high`: a `uint64_t` overlaying digit bytes 0..7. -/
def arithHigh (d : FullDecimal32) : Nat := natOfBytes (d.digits.take 8)

/-- The union member `arith.low`: a `uint16_t` overlaying digit bytes 8..9. -/
def arithLow (d : FullDecimal32) : Nat := natOfBytes (d.digits.drop 8)

/-- `uint32_t leftmostBit = 0x80000000`. -/
def leftmostBit : Nat := 0x80000000

/-- `uint8_t quotients[]` from the source: byte-indexed lookup table of quotients by 10. -/
def quotients : List Nat := [
  0, 0, 0, 0, 0, 0, 0, 0, 0, 0, 1, 1, 1, 1, 1, 1, 1, 1, 1, 1, 2, 2, 2, 2, 2, 2, 2, 2, 2, 2, 3, 3,
  3, 3, 3, 3, 3, 3, 3, 3, 4, 4, 4, 4, 4, 4, 4, 4, 4, 4, 5, 5, 5, 5, 5, 5, 5, 5, 5, 5, 6, 6, 6, 6,
  6, 6, 6, 6, 6, 6, 7, 7, 7, 7, 7, 7, 7, 7, 7, 7, 8, 8, 8, 8, 8, 8, 8, 8, 8, 8, 9, 9, 9, 9, 9, 9,
  9, 9, 9, 9, 10, 10, 10, 10, 10, 10, 10, 10, 10, 10, 11, 11, 11, 11, 11, 11, 11, 11, 11, 11, 12, 12, 12, 12, 12, 12, 12, 12,
  12, 12, 13, 13, 13, 13, 13, 13, 13, 13, 13, 13, 14, 14, 14, 14, 14, 14, 14, 14, 14, 14, 15, 15, 15, 15, 15, 15, 15, 15, 15, 15,
  16, 16, 16, 16, 16, 16, 16, 16, 16, 16, 17, 17, 17, 17, 17, 17, 17, 17, 17, 17, 18, 18, 18, 18, 18, 18, 18, 18, 18, 18, 19, 19,
  19, 19, 19, 19, 19, 19, 19, 19, 20, 20, 20, 20, 20, 20, 20, 20, 20, 20, 21, 21, 21, 21, 21, 21, 21, 21, 21, 21, 22, 22, 22, 22,
  22, 22, 22, 22, 22, 22, 23, 23, 23, 23, 23, 23, 23, 23, 23, 23, 24, 24, 24, 24, 24, 24, 24, 24, 24, 24, 25, 25, 25, 25, 25, 25]

/-- `uint8_t remainders[]` from the source: byte-indexed lookup table of remainders by 10. -/
def remainders : List Nat := [
  0, 1, 2, 3, 4, 5, 6, 7, 8, 9, 0, 1, 2, 3, 4, 5, 6, 7, 8, 9, 0, 1, 2, 3, 4, 5, 6, 7, 8, 9, 0, 1,
  2, 3, 4, 5, 6, 7, 8, 9, 0, 1, 2, 3, 4, 5, 6, 7, 8, 9, 0, 1, 2, 3, 4, 5, 6, 7, 8, 9, 0, 1, 2, 3,
  4, 5, 6, 7, 8, 9, 0, 1, 2, 3, 4, 5, 6, 7, 8, 9, 0, 1, 2, 3, 4, 5, 6, 7, 8, 9, 0, 1, 2, 3, 4, 5,
  6, 7, 8, 9, 0, 1, 2, 3, 4, 5, 6, 7, 8, 9, 0, 1, 2, 3, 4, 5, 6, 7, 8, 9, 0, 1, 2, 3, 4, 5, 6, 7,
  8, 9, 0, 1, 2, 3, 4, 5, 6, 7, 8, 9, 0, 1, 2, 3, 4, 5, 6, 7, 8, 9, 0, 1, 2, 3, 4, 5, 6, 7, 8, 9,
  0, 1, 2, 3, 4, 5, 6, 7, 8, 9, 0, 1, 2, 3, 4, 5, 6, 7, 8, 9, 0, 1, 2, 3, 4, 5, 6, 7, 8, 9, 0, 1,
  2, 3, 4, 5, 6, 7, 8, 9, 0, 1, 2, 3, 4, 5, 6, 7, 8, 9, 0, 1, 2, 3, 4, 5, 6, 7, 8, 9, 0, 1, 2, 3,
  4, 5, 6, 7, 8, 9, 0, 1, 2, 3, 4, 5, 6, 7, 8, 9, 0, 1, 2, 3, 4, 5, 6, 7, 8, 9, 0, 1, 2, 3, 4, 5]

/-- `const fullDecimal32_t decimalROM[]`: the 32 precomputed decimal expansions of
2^31 down to 2^0, ten digit bytes each, most significant first. -/
def decimalROM : List FullDecimal32 := [
  ⟨[2, 1, 4, 7, 4, 8, 3, 6, 4, 8]⟩,
  ⟨[1, 0, 7, 3, 7, 4, 1, 8, 2, 4]⟩,
  ⟨[0, 5, 3, 6, 8, 7, 0, 9, 1, 2]⟩,
  ⟨[0, 2, 6, 8, 4, 3, 5, 4, 5, 6]⟩,
  ⟨[0, 1, 3, 4, 2, 1, 7, 7, 2, 8]⟩,
  ⟨[0, 0, 6, 7, 1, 0, 8, 8, 6, 4]⟩,
  ⟨[0, 0, 3, 3, 5, 5, 4, 4, 3, 2]⟩,
  ⟨[0, 0, 1, 6, 7, 7, 7, 2, 1, 6]⟩,
  ⟨[0, 0, 0, 8, 3, 8, 8, 6, 0, 8]⟩,
  ⟨[0, 0, 0, 4, 1, 9, 4, 3, 0, 4]⟩,
  ⟨[0, 0, 0, 2, 0, 9, 7, 1, 5, 2]⟩,
  ⟨[0, 0, 0, 1, 0, 4, 8, 5, 7, 6]⟩,
  ⟨[0, 0, 0, 0, 5, 2, 4, 2, 8, 8]⟩,
  ⟨[0, 0, 0, 0, 2, 6, 2, 1, 4, 4]⟩,
  ⟨[0, 0, 0, 0, 1, 3, 1, 0, 7, 2]⟩,
  ⟨[0, 0, 0, 0, 0, 6, 5, 5, 3, 6]⟩,
  ⟨[0, 0, 0, 0, 0, 3, 2, 7, 6, 8]⟩,
  ⟨[0, 0, 0, 0, 0, 1, 6, 3, 8, 4]⟩,
  ⟨[0, 0, 0, 0, 0, 0, 8, 1, 9, 2]⟩,
  ⟨[0, 0, 0, 0, 0, 0, 4, 0, 9, 6]⟩,
  ⟨[0, 0, 0, 0, 0, 0, 2, 0, 4, 8]⟩,
  ⟨[0, 0, 0, 0, 0, 0, 1, 0, 2, 4]⟩,
  ⟨[0, 0, 0, 0, 0, 0, 0, 5, 1, 2]⟩,
  ⟨[0, 0, 0, 0, 0, 0, 0, 2, 5, 6]⟩,
  ⟨[0, 0, 0, 0, 0, 0, 0, 1, 2, 8]⟩,
  ⟨[0, 0, 0, 0, 0, 0, 0, 0, 6, 4]⟩,
  ⟨[0, 0, 0, 0, 0, 0, 0, 0, 3, 2]⟩,
  ⟨[0, 0, 0, 0, 0, 0, 0, 0, 1, 6]⟩,
  ⟨[0, 0, 0, 0, 0, 0, 0, 0, 0, 8]⟩,
  ⟨[0, 0, 0, 0, 0, 0, 0, 0, 0, 4]⟩,
  ⟨[0, 0, 0, 0, 0, 0, 0, 0, 0, 2]⟩,
  ⟨[0, 0, 0, 0, 0, 0, 0, 0, 0, 1]⟩]

/-- `addDecimalLazy`: adds two accumulators as one 64-bit addition on the
`arith.high` view and one 16-bit addition on the `arith.low` view, with no
carry handling between digit slots. -/
def addDecimalLazy (d1 d2 : FullDecimal32) : FullDecimal32 :=
  ⟨bytesOfNat 8 ((arithHigh d1 + arithHigh d2) % 2 ^ 64) ++
    bytesOfNat 2 ((arithLow d1 + arithLow d2) % 2 ^ 16)⟩

/-- One iteration of the `carryDecimal` loop body at index `i`:
`digits[i-1] += quotients[digits[i]]` (a byte addition, hence `% 256`) and
`digits[i] = remainders[digits[i]]`. -/
def carryStep (ds : List Nat) (i : Nat) : List Nat :=
  (ds.set (i - 1) ((ds.getD (i - 1) 0 + quotients.getD (ds.getD i 0) 0) % 256)).set i
    (remainders.getD (ds.getD i 0) 0)

/-- `carryDecimal`: the toothpaste squeeze, running the loop body for
`i = 9` down to `1`. -/
def carryDecimal (decimal : FullDecimal32) : FullDecimal32 :=
  ⟨(List.range 9).foldl (fun ds k => carryStep ds (9 - k)) decimal.digits⟩

/-- `addDecimal`: lazy addition followed by a carry pass. -/
def addDecimal (d1 d2 : FullDecimal32) : FullDecimal32 :=
  carryDecimal (addDecimalLazy d1 d2)

/-- `fillBuffer`: renders the accumulator into an ASCII buffer.  Returns the
written bytes (terminator included) together with the returned length. -/
def fillBuffer (decimal : FullDecimal32) : List Nat × Nat :=
  if arithLow decimal = 0 ∧ arithHigh decimal = 0 then ([48, 0], 1)
  else
    let rest := decimal.digits.dropWhile (fun d => d == 0)
    (rest.map (fun d => d + 48) ++ [0], rest.length)

/-- The all-zero accumulator (`a.arith.high = 0; a.arith.low = 0`). -/
def zeroDecimal : FullDecimal32 := ⟨List.replicate 10 0⟩

/-- The inner `while (!(i & leftmostBit)) { count++; i <<= 1; }` loop of
`uitodec`, with fuel; shifts of the `uint32_t` wrap modulo `2^32`. -/
def innerShift : Nat → Nat → Nat → Nat × Nat
  | 0, i, count => (i, count)
  | fuel + 1, i, count =>
    if i &&& leftmostBit = 0 then innerShift fuel (i * 2 % 2 ^ 32) (count + 1)
    else (i, count)

/-- The outer `while (i)` loop of `uitodec`, with fuel: position the next set
bit at the top, lazily add the matching ROM entry, shift it out, repeat. -/
def uitodecAux : Nat → Nat → Nat → FullDecimal32 → FullDecimal32
  | 0, _, _, a => a
  | fuel + 1, i, count, a =>
    if i = 0 then a
    else
      let s := innerShift 32 i count
      uitodecAux fuel (s.1 * 2 % 2 ^ 32) (s.2 + 1)
        (addDecimalLazy a (decimalROM.getD s.2 zeroDecimal))

/-- `uitodec`: scan the 32 bits from most to least significant, lazily
accumulating ROM entries for set bits, then carry once. -/
def uitodec (i : Nat) : FullDecimal32 :=
  carryDecimal (uitodecAux 32 i 0 zeroDecimal)

/-- Instrumentation of `uitodecAux`: the list of ROM indices `count` at which
`decimalROM` is accessed during the run, in order. -/
def uitodecTraceAux : Nat → Nat → Nat → List Nat
  | 0, _, _ => []
  | fuel + 1, i, count =>
    if i = 0 then []
    else
      let s := innerShift 32 i count
      s.2 :: uitodecTraceAux fuel (s.1 * 2 % 2 ^ 32) (s.2 + 1)

/-- Decimal value of a digit-slot list, most significant slot first. -/
def val10 (l : List Nat) : Nat := l.foldl (fun acc d => acc * 10 + d) 0

/-- Digit `j` of ROM entry `k`. -/
def romDigit (k j : Nat) : Nat := (decimalROM.getD k zeroDecimal).digits.getD j 0

/-- Column sum: digit `j` summed over all 32 ROM entries. -/
def colSum (j : Nat) : Nat := ∑ k in Finset.range 32, romDigit k j

/-- Slot `j` of the sum of the ROM entries still to be processed when the
encoder state is `(i, count)`: ROM index `k ≥ count` is included iff the bit
of `i` currently sitting at position `count + 31 - k` is set. -/
def romSumFrom (i count j : Nat) : Nat :=
  ∑ k in Finset.range 32, if count ≤ k ∧ i.testBit (count + 31 - k) then romDigit k j else 0

/-- The canonical ASCII decimal representation of `v`, from `Nat.digits`:
no leading zeros, and `"0"` for zero. -/
def canonicalDecimal (v : Nat) : List Nat :=
  if v = 0 then [48] else ((Nat.digits 10 v).reverse.map (fun d => d + 48))

/-- The ten decimal digits of `v`, most significant first (zero padded). -/
def decDigits (v : Nat) : List Nat :=
  [v / 1000000000 % 10, v / 100000000 % 10, v / 10000000 % 10, v / 1000000 % 10,
    v / 100000 % 10, v / 10000 % 10, v / 1000 % 10, v / 100 % 10, v / 10 % 10, v % 10]

/-- The first `n` decimal digits of `v`, least significant first (zero padded). -/
def padLE (n v : Nat) : List Nat := (List.range n).map (fun j => v / 10 ^ j % 10)

/-- Spec-side model of slot-by-slot addition: "a correct implementation may
instead add 10 independent bytes directly" (each one a byte addition). -/
def addDecimalSlotwise (d1 d2 : FullDecimal32) : FullDecimal32 :=
  ⟨List.zipWith (fun x y => (x + y) % 256) d1.digits d2.digits⟩

@[simp]
lemma digits_mk (l : List Nat) : (FullDecimal32.mk l).digits = l := rfl

/-! ### Byte (de)composition lemmas -/

@[simp]
lemma natOfBytes_nil : natOfBytes [] = 0 := rfl

@[simp]
lemma natOfBytes_cons (b : Nat) (l : List Nat) :
    natOfBytes (b :: l) = b + 256 * natOfBytes l := rfl

lemma natOfBytes_add : ∀ l1 l2 : List Nat, l1.length = l2.length →
    natOfBytes l1 + natOfBytes l2 = natOfBytes (List.zipWith (· + ·) l1 l2)
  | [], [], _ => rfl
  | b1 :: t1, b2 :: t2, h => by
    have ih := natOfBytes_add t1 t2 (by simpa using h)
    simp only [List.zipWith_cons_cons, natOfBytes_cons]
    omega
  | [], _ :: _, h => by simp at h
  | _ :: _, [], h => by simp at h

lemma natOfBytes_lt : ∀ l : List Nat, (∀ x ∈ l, x ≤ 255) →
    natOfBytes l < 256 ^ l.length
  | [], _ => by simp
  | b :: t, h => by
    have ih := natOfBytes_lt t (fun x hx => h x (List.mem_cons_of_mem _ hx))
    have hb : b ≤ 255 := h b (List.mem_cons_self _ _)
    simp only [natOfBytes_cons, List.length_cons, pow_succ]
    generalize natOfBytes t = m at ih ⊢
    generalize (256 : Nat) ^ t.length = K at ih ⊢
    omega

lemma bytesOfNat_natOfBytes : ∀ l : List Nat, (∀ x ∈ l, x ≤ 255) →
    bytesOfNat l.length (natOfBytes l) = l
  | [], _ => rfl
  | b :: t, h => by
    have hb : b ≤ 255 := h b (List.mem_cons_self _ _)
    have ih := bytesOfNat_natOfBytes t (fun x hx => h x (List.mem_cons_of_mem _ hx))
    simp only [List.length_cons, natOfBytes_cons, bytesOfNat]
    have e1 : (b + 256 * natOfBytes t) % 256 = b := by omega
    have e2 : (b + 256 * natOfBytes t) / 256 = natOfBytes t := by omega
    rw [e1, e2, ih]

lemma natOfBytes_eq_zero : ∀ l : List Nat, (natOfBytes l = 0 ↔ ∀ x ∈ l, x = 0)
  | [] => by simp
  | b :: t => by
    have ih := natOfBytes_eq_zero t
    simp only [natOfBytes_cons, List.mem_cons]
    constructor
    · intro h
      rintro x (rfl | hx)
      · omega
      · exact (ih.mp (by omega)) x hx
    · intro h
      have hb : b = 0 := h b (Or.inl rfl)
      have ht : natOfBytes t = 0 := ih.mpr (fun x hx => h x (Or.inr hx))
      omega

/-! ### Lazy addition acts slot by slot when no slot sum overflows a byte -/

lemma addDecimalLazy_digits (d1 d2 : FullDecimal32) (h1 : d1.digits.length = 10)
    (h2 : d2.digits.length = 10)
    (hb : ∀ x ∈ List.zipWith (· + ·) d1.digits d2.digits, x ≤ 255) :
    (addDecimalLazy d1 d2).digits = List.zipWith (· + ·) d1.digits d2.digits := by
  set s := List.zipWith (· + ·) d1.digits d2.digits with hs
  have hslen : s.length = 10 := by rw [hs, List.length_zipWith, h1, h2]; rfl
  have htake : (s.take 8).length = 8 := by rw [List.length_take]; omega
  have hdropl : (s.drop 8).length = 2 := by rw [List.length_drop]; omega
  have hb8 : ∀ x ∈ s.take 8, x ≤ 255 := fun x hx => hb x (List.mem_of_mem_take hx)
  have hb2 : ∀ x ∈ s.drop 8, x ≤ 255 := fun x hx => hb x (List.drop_subset _ _ hx)
  have hta : natOfBytes (d1.digits.take 8) + natOfBytes (d2.digits.take 8)
      = natOfBytes (s.take 8) := by
    rw [hs, List.take_zipWith]
    exact natOfBytes_add _ _ (by rw [List.length_take, List.length_take, h1, h2])
  have hdr : natOfBytes (d1.digits.drop 8) + natOfBytes (d2.digits.drop 8)
      = natOfBytes (s.drop 8) := by
    rw [hs, List.drop_zipWith]
    exact natOfBytes_add _ _ (by rw [List.length_drop, List.length_drop, h1, h2])
  have hlt8 : natOfBytes (s.take 8) < 2 ^ 64 := by
    have h := natOfBytes_lt (s.take 8) hb8
    rw [htake] at h
    exact lt_of_lt_of_le h (by norm_num)
  have hlt2 : natOfBytes (s.drop 8) < 2 ^ 16 := by
    have h := natOfBytes_lt (s.drop 8) hb2
    rw [hdropl] at h
    exact lt_of_lt_of_le h (by norm_num)
  have e8 : bytesOfNat 8 (natOfBytes (s.take 8)) = s.take 8 := by
    have h := bytesOfNat_natOfBytes (s.take 8) hb8
    rwa [htake] at h
  have e2 : bytesOfNat 2 (natOfBytes (s.drop 8)) = s.drop 8 := by
    have h := bytesOfNat_natOfBytes (s.drop 8) hb2
    rwa [hdropl] at h
  show bytesOfNat 8 ((arithHigh d1 + arithHigh d2) % 2 ^ 64) ++
      bytesOfNat 2 ((arithLow d1 + arithLow d2) % 2 ^ 16) = s
  rw [arithHigh, arithHigh, arithLow, arithLow, hta, hdr, Nat.mod_eq_of_lt hlt8,
    Nat.mod_eq_of_lt hlt2, e8, e2]
  exact List.take_append_drop 8 s

/-! ### The carry tables agree with division and remainder by ten -/

lemma quotients_getD : ∀ b < 256, quotients.getD b 0 = b / 10 := by decide

lemma remainders_getD : ∀ b < 256, remainders.getD b 0 = b % 10 := by decide


/-- Explicit description of the full carry pass on a ten-slot accumulator whose
slots are bounded by the ROM column sums: the result is the zero-padded decimal
digit list of the accumulator's weighted value. -/
theorem carryDecimal_explicit (d0 d1 d2 d3 d4 d5 d6 d7 d8 d9 : Nat)
    (h0 : d0 ≤ 3) (h1 : d1 ≤ 9) (h2 : d2 ≤ 33) (h3 : d3 ≤ 59) (h4 : d4 ≤ 50)
    (h5 : d5 ≤ 86) (h6 : d6 ≤ 97) (h7 : d7 ≤ 90) (h8 : d8 ≤ 114) (h9 : d9 ≤ 155) :
    (carryDecimal ⟨[d0, d1, d2, d3, d4, d5, d6, d7, d8, d9]⟩).digits =
      decDigits (d0 * 1000000000 + d1 * 100000000 + d2 * 10000000 + d3 * 1000000 + d4 * 100000 + d5 * 10000 + d6 * 1000 + d7 * 100 + d8 * 10 + d9) := by
  have e : (carryDecimal ⟨[d0, d1, d2, d3, d4, d5, d6, d7, d8, d9]⟩).digits =
      carryStep (carryStep (carryStep (carryStep (carryStep (carryStep (carryStep (carryStep (carryStep [d0, d1, d2, d3, d4, d5, d6, d7, d8, d9] 9) 8) 7) 6) 5) 4) 3) 2) 1 := by
    simp only [carryDecimal, digits_mk, List.range_succ, List.range_zero, List.foldl_append,
      List.foldl_cons, List.foldl_nil]
  have s9 : carryStep [d0, d1, d2, d3, d4, d5, d6, d7, d8, d9] 9 = [d0, d1, d2, d3, d4, d5, d6, d7, d8 + d9 / 10, d9 % 10] := by
    show [d0, d1, d2, d3, d4, d5, d6, d7, (d8 + quotients.getD (d9) 0) % 256, remainders.getD (d9) 0] = _
    rw [quotients_getD (d9) (by omega), remainders_getD (d9) (by omega),
      Nat.mod_eq_of_lt (show d8 + d9 / 10 < 256 by omega)]
  have s8 : carryStep [d0, d1, d2, d3, d4, d5, d6, d7, (d8 + d9 / 10), d9 % 10] 8 = [d0, d1, d2, d3, d4, d5, d6, d7 + (d8 + d9 / 10) / 10, (d8 + d9 / 10) % 10, d9 % 10] := by
    show [d0, d1, d2, d3, d4, d5, d6, (d7 + quotients.getD ((d8 + d9 / 10)) 0) % 256, remainders.getD ((d8 + d9 / 10)) 0, d9 % 10] = _
    rw [quotients_getD ((d8 + d9 / 10)) (by omega), remainders_getD ((d8 + d9 / 10)) (by omega),
      Nat.mod_eq_of_lt (show d7 + (d8 + d9 / 10) / 10 < 256 by omega)]
  have s7 : carryStep [d0, d1, d2, d3, d4, d5, d6, (d7 + (d8 + d9 / 10) / 10), (d8 + d9 / 10) % 10, d9 % 10] 7 = [d0, d1, d2, d3, d4, d5, d6 + (d7 + (d8 + d9 / 10) / 10) / 10, (d7 + (d8 + d9 / 10) / 10) % 10, (d8 + d9 / 10) % 10, d9 % 10] := by
    show [d0, d1, d2, d3, d4, d5, (d6 + quotients.getD ((d7 + (d8 + d9 / 10) / 10)) 0) % 256, remainders.getD ((d7 + (d8 + d9 / 10) / 10)) 0, (d8 + d9 / 10) % 10, d9 % 10] = _
    rw [quotients_getD ((d7 + (d8 + d9 / 10) / 10)) (by omega), remainders_getD ((d7 + (d8 + d9 / 10) / 10)) (by omega),
      Nat.mod_eq_of_lt (show d6 + (d7 + (d8 + d9 / 10) / 10) / 10 < 256 by omega)]
  have s6 : carryStep [d0, d1, d2, d3, d4, d5, (d6 + (d7 + (d8 + d9 / 10) / 10) / 10), (d7 + (d8 + d9 / 10) / 10) % 10, (d8 + d9 / 10) % 10, d9 % 10] 6 = [d0, d1, d2, d3, d4, d5 + (d6 + (d7 + (d8 + d9 / 10) / 10) / 10) / 10, (d6 + (d7 + (d8 + d9 / 10) / 10) / 10) % 10, (d7 + (d8 + d9 / 10) / 10) % 10, (d8 + d9 / 10) % 10, d9 % 10] := by
    show [d0, d1, d2, d3, d4, (d5 + quotients.getD ((d6 + (d7 + (d8 + d9 / 10) / 10) / 10)) 0) % 256, remainders.getD ((d6 + (d7 + (d8 + d9 / 10) / 10) / 10)) 0, (d7 + (d8 + d9 / 10) / 10) % 10, (d8 + d9 / 10) % 10, d9 % 10] = _
    rw [quotients_getD ((d6 + (d7 + (d8 + d9 / 10) / 10) / 10)) (by omega), remainders_getD ((d6 + (d7 + (d8 + d9 / 10) / 10) / 10)) (by omega),
      Nat.mod_eq_of_lt (show d5 + (d6 + (d7 + (d8 + d9 / 10) / 10) / 10) / 10 < 256 by omega)]
  have s5 : carryStep [d0, d1, d2, d3, d4, (d5 + (d6 + (d7 + (d8 + d9 / 10) / 10) / 10) / 10), (d6 + (d7 + (d8 + d9 / 10) / 10) / 10) % 10, (d7 + (d8 + d9 / 10) / 10) % 10, (d8 + d9 / 10) % 10, d9 % 10] 5 = [d0, d1, d2, d3, d4 + (d5 + (d6 + (d7 + (d8 + d9 / 10) / 10) / 10) / 10) / 10, (d5 + (d6 + (d7 + (d8 + d9 / 10) / 10) / 10) / 10) % 10, (d6 + (d7 + (d8 + d9 / 10) / 10) / 10) % 10, (d7 + (d8 + d9 / 10) / 10) % 10, (d8 + d9 / 10) % 10, d9 % 10] := by
    show [d0, d1, d2, d3, (d4 + quotients.getD ((d5 + (d6 + (d7 + (d8 + d9 / 10) / 10) / 10) / 10)) 0) % 256, remainders.getD ((d5 + (d6 + (d7 + (d8 + d9 / 10) / 10) / 10) / 10)) 0, (d6 + (d7 + (d8 + d9 / 10) / 10) / 10) % 10, (d7 + (d8 + d9 / 10) / 10) % 10, (d8 + d9 / 10) % 10, d9 % 10] = _
    rw [quotients_getD ((d5 + (d6 + (d7 + (d8 + d9 / 10) / 10) / 10) / 10)) (by omega), remainders_getD ((d5 + (d6 + (d7 + (d8 + d9 / 10) / 10) / 10) / 10)) (by omega),
      Nat.mod_eq_of_lt (show d4 + (d5 + (d6 + (d7 + (d8 + d9 / 10) / 10) / 10) / 10) / 10 < 256 by omega)]
  have s4 : carryStep [d0, d1, d2, d3, (d4 + (d5 + (d6 + (d7 + (d8 + d9 / 10) / 10) / 10) / 10) / 10), (d5 + (d6 + (d7 + (d8 + d9 / 10) / 10) / 10) / 10) % 10, (d6 + (d7 + (d8 + d9 / 10) / 10) / 10) % 10, (d7 + (d8 + d9 / 10) / 10) % 10, (d8 + d9 / 10) % 10, d9 % 10] 4 = [d0, d1, d2, d3 + (d4 + (d5 + (d6 + (d7 + (d8 + d9 / 10) / 10) / 10) / 10) / 10) / 10, (d4 + (d5 + (d6 + (d7 + (d8 + d9 / 10) / 10) / 10) / 10) / 10) % 10, (d5 + (d6 + (d7 + (d8 + d9 / 10) / 10) / 10) / 10) % 10, (d6 + (d7 + (d8 + d9 / 10) / 10) / 10) % 10, (d7 + (d8 + d9 / 10) / 10) % 10, (d8 + d9 / 10) % 10, d9 % 10] := by
    show [d0, d1, d2, (d3 + quotients.getD ((d4 + (d5 + (d6 + (d7 + (d8 + d9 / 10) / 10) / 10) / 10) / 10)) 0) % 256, remainders.getD ((d4 + (d5 + (d6 + (d7 + (d8 + d9 / 10) / 10) / 10) / 10) / 10)) 0, (d5 + (d6 + (d7 + (d8 + d9 / 10) / 10) / 10) / 10) % 10, (d6 + (d7 + (d8 + d9 / 10) / 10) / 10) % 10, (d7 + (d8 + d9 / 10) / 10) % 10, (d8 + d9 / 10) % 10, d9 % 10] = _
    rw [quotients_getD ((d4 + (d5 + (d6 + (d7 + (d8 + d9 / 10) / 10) / 10) / 10) / 10)) (by omega), remainders_getD ((d4 + (d5 + (d6 + (d7 + (d8 + d9 / 10) / 10) / 10) / 10) / 10)) (by omega),
      Nat.mod_eq_of_lt (show d3 + (d4 + (d5 + (d6 + (d7 + (d8 + d9 / 10) / 10) / 10) / 10) / 10) / 10 < 256 by omega)]
  have s3 : carryStep [d0, d1, d2, (d3 + (d4 + (d5 + (d6 + (d7 + (d8 + d9 / 10) / 10) / 10) / 10) / 10) / 10), (d4 + (d5 + (d6 + (d7 + (d8 + d9 / 10) / 10) / 10) / 10) / 10) % 10, (d5 + (d6 + (d7 + (d8 + d9 / 10) / 10) / 10) / 10) % 10, (d6 + (d7 + (d8 + d9 / 10) / 10) / 10) % 10, (d7 + (d8 + d9 / 10) / 10) % 10, (d8 + d9 / 10) % 10, d9 % 10] 3 = [d0, d1, d2 + (d3 + (d4 + (d5 + (d6 + (d7 + (d8 + d9 / 10) / 10) / 10) / 10) / 10) / 10) / 10, (d3 + (d4 + (d5 + (d6 + (d7 + (d8 + d9 / 10) / 10) / 10) / 10) / 10) / 10) % 10, (d4 + (d5 + (d6 + (d7 + (d8 + d9 / 10) / 10) / 10) / 10) / 10) % 10, (d5 + (d6 + (d7 + (d8 + d9 / 10) / 10) / 10) / 10) % 10, (d6 + (d7 + (d8 + d9 / 10) / 10) / 10) % 10, (d7 + (d8 + d9 / 10) / 10) % 10, (d8 + d9 / 10) % 10, d9 % 10] := by
    show [d0, d1, (d2 + quotients.getD ((d3 + (d4 + (d5 + (d6 + (d7 + (d8 + d9 / 10) / 10) / 10) / 10) / 10) / 10)) 0) % 256, remainders.getD ((d3 + (d4 + (d5 + (d6 + (d7 + (d8 + d9 / 10) / 10) / 10) / 10) / 10) / 10)) 0, (d4 + (d5 + (d6 + (d7 + (d8 + d9 / 10) / 10) / 10) / 10) / 10) % 10, (d5 + (d6 + (d7 + (d8 + d9 / 10) / 10) / 10) / 10) % 10, (d6 + (d7 + (d8 + d9 / 10) / 10) / 10) % 10, (d7 + (d8 + d9 / 10) / 10) % 10, (d8 + d9 / 10) % 10, d9 % 10] = _
    rw [quotients_getD ((d3 + (d4 + (d5 + (d6 + (d7 + (d8 + d9 / 10) / 10) / 10) / 10) / 10) / 10)) (by omega), remainders_getD ((d3 + (d4 + (d5 + (d6 + (d7 + (d8 + d9 / 10) / 10) / 10) / 10) / 10) / 10)) (by omega),
      Nat.mod_eq_of_lt (show d2 + (d3 + (d4 + (d5 + (d6 + (d7 + (d8 + d9 / 10) / 10) / 10) / 10) / 10) / 10) / 10 < 256 by omega)]
  have s2 : carryStep [d0, d1, (d2 + (d3 + (d4 + (d5 + (d6 + (d7 + (d8 + d9 / 10) / 10) / 10) / 10) / 10) / 10) / 10), (d3 + (d4 + (d5 + (d6 + (d7 + (d8 + d9 / 10) / 10) / 10) / 10) / 10) / 10) % 10, (d4 + (d5 + (d6 + (d7 + (d8 + d9 / 10) / 10) / 10) / 10) / 10) % 10, (d5 + (d6 + (d7 + (d8 + d9 / 10) / 10) / 10) / 10) % 10, (d6 + (d7 + (d8 + d9 / 10) / 10) / 10) % 10, (d7 + (d8 + d9 / 10) / 10) % 10, (d8 + d9 / 10) % 10, d9 % 10] 2 = [d0, d1 + (d2 + (d3 + (d4 + (d5 + (d6 + (d7 + (d8 + d9 / 10) / 10) / 10) / 10) / 10) / 10) / 10) / 10, (d2 + (d3 + (d4 + (d5 + (d6 + (d7 + (d8 + d9 / 10) / 10) / 10) / 10) / 10) / 10) / 10) % 10, (d3 + (d4 + (d5 + (d6 + (d7 + (d8 + d9 / 10) / 10) / 10) / 10) / 10) / 10) % 10, (d4 + (d5 + (d6 + (d7 + (d8 + d9 / 10) / 10) / 10) / 10) / 10) % 10, (d5 + (d6 + (d7 + (d8 + d9 / 10) / 10) / 10) / 10) % 10, (d6 + (d7 + (d8 + d9 / 10) / 10) / 10) % 10, (d7 + (d8 + d9 / 10) / 10) % 10, (d8 + d9 / 10) % 10, d9 % 10] := by
    show [d0, (d1 + quotients.getD ((d2 + (d3 + (d4 + (d5 + (d6 + (d7 + (d8 + d9 / 10) / 10) / 10) / 10) / 10) / 10) / 10)) 0) % 256, remainders.getD ((d2 + (d3 + (d4 + (d5 + (d6 + (d7 + (d8 + d9 / 10) / 10) / 10) / 10) / 10) / 10) / 10)) 0, (d3 + (d4 + (d5 + (d6 + (d7 + (d8 + d9 / 10) / 10) / 10) / 10) / 10) / 10) % 10, (d4 + (d5 + (d6 + (d7 + (d8 + d9 / 10) / 10) / 10) / 10) / 10) % 10, (d5 + (d6 + (d7 + (d8 + d9 / 10) / 10) / 10) / 10) % 10, (d6 + (d7 + (d8 + d9 / 10) / 10) / 10) % 10, (d7 + (d8 + d9 / 10) / 10) % 10, (d8 + d9 / 10) % 10, d9 % 10] = _
    rw [quotients_getD ((d2 + (d3 + (d4 + (d5 + (d6 + (d7 + (d8 + d9 / 10) / 10) / 10) / 10) / 10) / 10) / 10)) (by omega), remainders_getD ((d2 + (d3 + (d4 + (d5 + (d6 + (d7 + (d8 + d9 / 10) / 10) / 10) / 10) / 10) / 10) / 10)) (by omega),
      Nat.mod_eq_of_lt (show d1 + (d2 + (d3 + (d4 + (d5 + (d6 + (d7 + (d8 + d9 / 10) / 10) / 10) / 10) / 10) / 10) / 10) / 10 < 256 by omega)]
  have s1 : carryStep [d0, (d1 + (d2 + (d3 + (d4 + (d5 + (d6 + (d7 + (d8 + d9 / 10) / 10) / 10) / 10) / 10) / 10) / 10) / 10), (d2 + (d3 + (d4 + (d5 + (d6 + (d7 + (d8 + d9 / 10) / 10) / 10) / 10) / 10) / 10) / 10) % 10, (d3 + (d4 + (d5 + (d6 + (d7 + (d8 + d9 / 10) / 10) / 10) / 10) / 10) / 10) % 10, (d4 + (d5 + (d6 + (d7 + (d8 + d9 / 10) / 10) / 10) / 10) / 10) % 10, (d5 + (d6 + (d7 + (d8 + d9 / 10) / 10) / 10) / 10) % 10, (d6 + (d7 + (d8 + d9 / 10) / 10) / 10) % 10, (d7 + (d8 + d9 / 10) / 10) % 10, (d8 + d9 / 10) % 10, d9 % 10] 1 = [d0 + (d1 + (d2 + (d3 + (d4 + (d5 + (d6 + (d7 + (d8 + d9 / 10) / 10) / 10) / 10) / 10) / 10) / 10) / 10) / 10, (d1 + (d2 + (d3 + (d4 + (d5 + (d6 + (d7 + (d8 + d9 / 10) / 10) / 10) / 10) / 10) / 10) / 10) / 10) % 10, (d2 + (d3 + (d4 + (d5 + (d6 + (d7 + (d8 + d9 / 10) / 10) / 10) / 10) / 10) / 10) / 10) % 10, (d3 + (d4 + (d5 + (d6 + (d7 + (d8 + d9 / 10) / 10) / 10) / 10) / 10) / 10) % 10, (d4 + (d5 + (d6 + (d7 + (d8 + d9 / 10) / 10) / 10) / 10) / 10) % 10, (d5 + (d6 + (d7 + (d8 + d9 / 10) / 10) / 10) / 10) % 10, (d6 + (d7 + (d8 + d9 / 10) / 10) / 10) % 10, (d7 + (d8 + d9 / 10) / 10) % 10, (d8 + d9 / 10) % 10, d9 % 10] := by
    show [(d0 + quotients.getD ((d1 + (d2 + (d3 + (d4 + (d5 + (d6 + (d7 + (d8 + d9 / 10) / 10) / 10) / 10) / 10) / 10) / 10) / 10)) 0) % 256, remainders.getD ((d1 + (d2 + (d3 + (d4 + (d5 + (d6 + (d7 + (d8 + d9 / 10) / 10) / 10) / 10) / 10) / 10) / 10) / 10)) 0, (d2 + (d3 + (d4 + (d5 + (d6 + (d7 + (d8 + d9 / 10) / 10) / 10) / 10) / 10) / 10) / 10) % 10, (d3 + (d4 + (d5 + (d6 + (d7 + (d8 + d9 / 10) / 10) / 10) / 10) / 10) / 10) % 10, (d4 + (d5 + (d6 + (d7 + (d8 + d9 / 10) / 10) / 10) / 10) / 10) % 10, (d5 + (d6 + (d7 + (d8 + d9 / 10) / 10) / 10) / 10) % 10, (d6 + (d7 + (d8 + d9 / 10) / 10) / 10) % 10, (d7 + (d8 + d9 / 10) / 10) % 10, (d8 + d9 / 10) % 10, d9 % 10] = _
    rw [quotients_getD ((d1 + (d2 + (d3 + (d4 + (d5 + (d6 + (d7 + (d8 + d9 / 10) / 10) / 10) / 10) / 10) / 10) / 10) / 10)) (by omega), remainders_getD ((d1 + (d2 + (d3 + (d4 + (d5 + (d6 + (d7 + (d8 + d9 / 10) / 10) / 10) / 10) / 10) / 10) / 10) / 10)) (by omega),
      Nat.mod_eq_of_lt (show d0 + (d1 + (d2 + (d3 + (d4 + (d5 + (d6 + (d7 + (d8 + d9 / 10) / 10) / 10) / 10) / 10) / 10) / 10) / 10) / 10 < 256 by omega)]
  rw [e, s9, s8, s7, s6, s5, s4, s3, s2, s1]
  simp only [decDigits, List.cons.injEq, and_true]
  refine ⟨?_, ?_, ?_, ?_, ?_, ?_, ?_, ?_, ?_, ?_⟩ <;> omega

/-! ### Small list access helpers -/

lemma getD_of_lt (l : List Nat) (n : Nat) (h : n < l.length) : l.getD n 0 = l[n] := by
  simp [List.getD_eq_getElem?_getD, List.getElem?_eq_getElem h]

lemma getD_of_ge (l : List Nat) (n : Nat) (h : l.length ≤ n) : l.getD n 0 = 0 := by
  simp [List.getD_eq_getElem?_getD, List.getElem?_eq_none h]

lemma map_getD_range (n : Nat) (l : List Nat) (h : l.length = n) :
    (List.range n).map (fun j => l.getD j 0) = l := by
  apply List.ext_getElem
  · simp [h]
  · intro i h1 h2
    simp only [List.getElem_map, List.getElem_range]
    exact getD_of_lt l i (by omega)

lemma getD_zipWith_add (l1 l2 : List Nat) (h1 : l1.length = 10) (h2 : l2.length = 10)
    (j : Nat) (hj : j < 10) :
    (List.zipWith (· + ·) l1 l2).getD j 0 = l1.getD j 0 + l2.getD j 0 := by
  rw [getD_of_lt _ _ (by rw [List.length_zipWith, h1, h2]; omega),
    getD_of_lt _ _ (by omega), getD_of_lt _ _ (by omega)]
  exact List.getElem_zipWith

/-! ### The inner shifting loop -/

lemma and_leftmostBit_eq_zero (i : Nat) : i &&& leftmostBit = 0 ↔ i.testBit 31 = false := by
  have h : leftmostBit = 2 ^ 31 := by norm_num [leftmostBit]
  rw [h, Nat.and_two_pow]
  cases hb : i.testBit 31 <;> simp

lemma testBit_top (i L : Nat) (h1 : 2 ^ L ≤ i) (h2 : i < 2 ^ (L + 1)) : i.testBit L = true := by
  have e : (1 + 1) * 2 ^ L = 2 ^ (L + 1) := by ring
  have hd : i / 2 ^ L = 1 := Nat.div_eq_of_lt_le (by rwa [one_mul]) (by rwa [e])
  simp [Nat.testBit_to_div_mod, hd]

lemma innerShift_spec : ∀ z fuel i count, z ≤ 31 → z ≤ fuel →
    2 ^ (31 - z) ≤ i → i < 2 ^ (32 - z) →
    innerShift fuel i count = (i * 2 ^ z, count + z)
  | 0, fuel, i, count, _, _, h1, h2 => by
    have ht : i.testBit 31 = true := testBit_top i 31 (by simpa using h1) (by simpa using h2)
    have hc : ¬ i &&& leftmostBit = 0 := by
      rw [and_leftmostBit_eq_zero, ht]
      simp
    cases fuel with
    | zero => simp [innerShift]
    | succ f => simp [innerShift, hc]
  | z + 1, fuel, i, count, hz, hf, h1, h2 => by
    obtain ⟨f, rfl⟩ : ∃ f, fuel = f + 1 := ⟨fuel - 1, by omega⟩
    obtain ⟨k, hk1, hk2, hk3, hk4⟩ :
        ∃ k, 31 - (z + 1) = k ∧ 32 - (z + 1) = k + 1 ∧ 31 - z = k + 1 ∧ 32 - z = k + 2 :=
      ⟨30 - z, by omega, by omega, by omega, by omega⟩
    rw [hk1] at h1
    rw [hk2] at h2
    have hlt : i < 2 ^ 31 := lt_of_lt_of_le h2 (Nat.pow_le_pow_right (by norm_num) (by omega))
    have hc : i &&& leftmostBit = 0 := (and_leftmostBit_eq_zero i).mpr
      (Nat.testBit_lt_two_pow hlt)
    have hmod : i * 2 % 2 ^ 32 = i * 2 := by
      apply Nat.mod_eq_of_lt
      calc i * 2 < 2 ^ (k + 1) * 2 := by omega
        _ ≤ 2 ^ 32 := by
          rw [← pow_succ]
          exact Nat.pow_le_pow_right (by norm_num) (by omega)
    have ih := innerShift_spec z f (i * 2) (count + 1) (by omega) (by omega)
      (by rw [hk3, pow_succ]; omega) (by rw [hk4, pow_succ]; omega)
    show innerShift (f + 1) i count = _
    rw [innerShift]
    simp only [hc, if_pos rfl, if_true, hmod]
    rw [show (i * 2 % 2 ^ 32) = i * 2 from hmod] at *
    rw [ih]
    refine Prod.ext ?_ ?_
    · show i * 2 * 2 ^ z = i * 2 ^ (z + 1)
      ring
    · show count + 1 + z = count + (z + 1)
      omega

/-! ### ROM entry facts -/

lemma decimalROM_length : decimalROM.length = 32 := rfl

lemma romLen : ∀ k < 32, (decimalROM.getD k zeroDecimal).digits.length = 10 := by decide

lemma romDigit_lt_le9 : ∀ k < 32, ∀ j < 10, romDigit k j ≤ 9 := by decide

lemma zeroDecimal_getD (j : Nat) : zeroDecimal.digits.getD j 0 = 0 := by
  show (List.replicate 10 0).getD j 0 = 0
  rcases lt_or_ge j 10 with h | h
  · rw [getD_of_lt _ _ (by rw [List.length_replicate]; omega)]
    exact List.getElem_replicate _ _
  · exact getD_of_ge _ _ (by rw [List.length_replicate]; omega)

lemma romWeighted : ∀ k < 32,
    (∑ j ∈ Finset.range 10, 10 ^ (9 - j) * romDigit k j) = 2 ^ (31 - k) := by decide

lemma colSum_vals : colSum 0 = 3 ∧ colSum 1 = 9 ∧ colSum 2 = 33 ∧ colSum 3 = 59 ∧
    colSum 4 = 50 ∧ colSum 5 = 86 ∧ colSum 6 = 97 ∧ colSum 7 = 90 ∧ colSum 8 = 114 ∧
    colSum 9 = 155 := by decide

/-! ### The pending ROM sum for an encoder state -/

lemma romSumFrom_le_colSum (i count j : Nat) : romSumFrom i count j ≤ colSum j := by
  unfold romSumFrom colSum
  apply Finset.sum_le_sum
  intro k _
  split
  · exact le_refl _
  · exact Nat.zero_le _

lemma romSumFrom_zero (count j : Nat) : romSumFrom 0 count j = 0 := by
  unfold romSumFrom
  apply Finset.sum_eq_zero
  intro k _
  simp

lemma romSumFrom_step (i count L j : Nat) (h1 : 2 ^ L ≤ i) (h2 : i < 2 ^ (L + 1))
    (hcL : count ≤ L) (hL : L ≤ 31) :
    romSumFrom i count j =
      romDigit (count + (31 - L)) j +
        romSumFrom (i * 2 ^ (31 - L + 1) % 2 ^ 32) (count + (31 - L) + 1) j := by
  set z := 31 - L with hz
  have htop : i.testBit L = true := testBit_top i L h1 h2
  have hterm : ∀ k ∈ Finset.range 32,
      (if count ≤ k ∧ i.testBit (count + 31 - k) then romDigit k j else 0) =
        (if k = count + z then romDigit k j else 0) +
        (if count + z + 1 ≤ k ∧
            (i * 2 ^ (z + 1) % 2 ^ 32).testBit (count + z + 1 + 31 - k) then romDigit k j
          else 0) := by
    intro k hk
    rw [Finset.mem_range] at hk
    rcases lt_or_ge k count with hkc | hkc
    · rw [if_neg (by omega), if_neg (by omega), if_neg (by omega)]
    rcases lt_or_ge k (count + z) with hkz | hkz
    · have hpos : L + 1 ≤ count + 31 - k := by omega
      have hbit : i.testBit (count + 31 - k) = false :=
        Nat.testBit_lt_two_pow (lt_of_lt_of_le h2 (Nat.pow_le_pow_right (by norm_num) hpos))
      rw [if_neg (by simp [hbit]), if_neg (by omega), if_neg (by omega)]
    rcases eq_or_lt_of_le hkz with hke | hkgt
    · have hidx : count + 31 - k = L := by omega
      rw [if_pos ⟨hkc, by rw [hidx]; exact htop⟩, if_pos hke.symm,
        if_neg (fun h => absurd h.1 (by omega))]
      exact (Nat.add_zero _).symm
    · have hplt : count + z + 1 + 31 - k < 32 := by omega
      have hbit : (i * 2 ^ (z + 1) % 2 ^ 32).testBit (count + z + 1 + 31 - k)
          = i.testBit (count + 31 - k) := by
        rw [Nat.testBit_mod_two_pow, mul_comm i (2 ^ (z + 1)), Nat.testBit_mul_pow_two]
        have e1 : count + z + 1 + 31 - k - (z + 1) = count + 31 - k := by omega
        rw [e1]
        simp [hplt, show z + 1 ≤ count + z + 1 + 31 - k by omega]
      rw [hbit]
      by_cases hb : i.testBit (count + 31 - k)
      · rw [if_pos ⟨by omega, hb⟩, if_neg (show ¬ k = count + z by omega),
          if_pos ⟨by omega, hb⟩]
        exact (Nat.zero_add _).symm
      · rw [if_neg (fun h => hb h.2), if_neg (show ¬ k = count + z by omega),
          if_neg (fun h => hb h.2)]
  have hsplit : romSumFrom i count j =
      (∑ k ∈ Finset.range 32, if k = count + z then romDigit k j else 0) +
        ∑ k ∈ Finset.range 32,
          (if count + z + 1 ≤ k ∧
              (i * 2 ^ (z + 1) % 2 ^ 32).testBit (count + z + 1 + 31 - k) then romDigit k j
            else 0) := by
    unfold romSumFrom
    rw [Finset.sum_congr rfl hterm, Finset.sum_add_distrib]
  rw [hsplit, Finset.sum_ite_eq' (Finset.range 32) (count + z) (fun k => romDigit k j),
    if_pos (Finset.mem_range.mpr (by omega))]
  rfl

lemma sum_testBit_two_pow : ∀ n v, v < 2 ^ n →
    (∑ p ∈ Finset.range n, if v.testBit p then 2 ^ p else 0) = v
  | 0, v, hv => by
    have hv0 : v = 0 := by omega
    subst hv0
    simp
  | n + 1, v, hv => by
    have hmod : ∀ p ∈ Finset.range n, (if v.testBit p then 2 ^ p else 0)
        = (if (v % 2 ^ n).testBit p then 2 ^ p else 0) := by
      intro p hp
      rw [Finset.mem_range] at hp
      rw [Nat.testBit_mod_two_pow]
      simp [hp]
    rw [Finset.sum_range_succ, Finset.sum_congr rfl hmod,
      sum_testBit_two_pow n (v % 2 ^ n) (Nat.mod_lt _ (Nat.two_pow_pos n))]
    have hdm := Nat.div_add_mod v (2 ^ n)
    have hq : v / 2 ^ n < 2 := by
      rw [Nat.div_lt_iff_lt_mul (Nat.two_pow_pos n)]
      calc v < 2 ^ (n + 1) := hv
        _ = 2 * 2 ^ n := by ring
    rw [Nat.testBit_to_div_mod]
    generalize hgen : v / 2 ^ n = q at hq hdm ⊢
    have h01 : q = 0 ∨ q = 1 := by omega
    rcases h01 with h0 | h0 <;> subst h0
    · norm_num
      rw [mul_zero, zero_add] at hdm
      exact hdm
    · norm_num
      rw [mul_one] at hdm
      linarith

/-! ### The outer accumulation loop -/

lemma uitodecAux_spec : ∀ fuel i count (a : FullDecimal32), i < 2 ^ 32 → 2 ^ count ∣ i →
    32 - count ≤ fuel → a.digits.length = 10 →
    (∀ j < 10, a.digits.getD j 0 + romSumFrom i count j ≤ 255) →
    (uitodecAux fuel i count a).digits =
      (List.range 10).map (fun j => a.digits.getD j 0 + romSumFrom i count j)
  | 0, i, count, a, hi, hdvd, hfuel, hlen, _ => by
    have hc32 : 32 ≤ count := by omega
    have hi0 : i = 0 := by
      by_contra hne
      have h1 : 2 ^ count ≤ i := Nat.le_of_dvd (Nat.pos_of_ne_zero hne) hdvd
      have h2 : (2 : Nat) ^ 32 ≤ 2 ^ count := Nat.pow_le_pow_right (by norm_num) hc32
      omega
    subst hi0
    show a.digits = _
    simp only [romSumFrom_zero, Nat.add_zero]
    exact (map_getD_range 10 a.digits hlen).symm
  | fuel + 1, i, count, a, hi, hdvd, hfuel, hlen, hbound => by
    rcases eq_or_ne i 0 with hi0 | hi0
    · subst hi0
      show (uitodecAux (fuel + 1) 0 count a).digits = _
      simp only [uitodecAux, if_pos rfl, romSumFrom_zero, Nat.add_zero]
      exact (map_getD_range 10 a.digits hlen).symm
    · set L := Nat.log 2 i with hLdef
      have hL1 : 2 ^ L ≤ i := Nat.pow_log_le_self 2 hi0
      have hL2 : i < 2 ^ (L + 1) := Nat.lt_pow_succ_log_self (by norm_num) i
      have hL31 : L ≤ 31 := by
        by_contra hgt
        have : (2 : Nat) ^ 32 ≤ 2 ^ L := Nat.pow_le_pow_right (by norm_num) (by omega)
        omega
      have hcL : count ≤ L := by
        have h1 : 2 ^ count ≤ i := Nat.le_of_dvd (Nat.pos_of_ne_zero hi0) hdvd
        by_contra hgt
        have h2 : (2 : Nat) ^ (L + 1) ≤ 2 ^ count := Nat.pow_le_pow_right (by norm_num) (by omega)
        omega
      set z := 31 - L with hzdef
      have hshift : innerShift 32 i count = (i * 2 ^ z, count + z) :=
        innerShift_spec z 32 i count (by omega) (by omega)
          (by rw [show 31 - z = L by omega]; exact hL1)
          (by rw [show 32 - z = L + 1 by omega]; exact hL2)
      have htop : i.testBit L = true := testBit_top i L hL1 hL2
      have hsingle : ∀ j < 10, romDigit (count + z) j ≤ romSumFrom i count j := by
        intro j _
        unfold romSumFrom
        have hmem : count + z ∈ Finset.range 32 := Finset.mem_range.mpr (by omega)
        have hcond : count ≤ count + z ∧ i.testBit (count + 31 - (count + z)) = true :=
          ⟨by omega, by rw [show count + 31 - (count + z) = L by omega]; exact htop⟩
        calc romDigit (count + z) j
            = if count ≤ count + z ∧ i.testBit (count + 31 - (count + z)) = true
                then romDigit (count + z) j else 0 := (if_pos hcond).symm
          _ ≤ ∑ k ∈ Finset.range 32,
                if count ≤ k ∧ i.testBit (count + 31 - k) = true then romDigit k j else 0 :=
            Finset.single_le_sum
              (f := fun k =>
                if count ≤ k ∧ i.testBit (count + 31 - k) = true then romDigit k j else 0)
              (fun k _ => Nat.zero_le _) hmem
      have hRlen : (decimalROM.getD (count + z) zeroDecimal).digits.length = 10 :=
        romLen _ (by omega)
      have hblazy : ∀ x ∈ List.zipWith (· + ·) a.digits
          (decimalROM.getD (count + z) zeroDecimal).digits, x ≤ 255 := by
        intro x hx
        obtain ⟨n, hn, hval⟩ := List.mem_iff_getElem.mp hx
        rw [List.length_zipWith, hlen, hRlen] at hn
        rw [List.getElem_zipWith] at hval
        have hn10 : n < 10 := by omega
        have e1 : a.digits[n] = a.digits.getD n 0 := (getD_of_lt _ _ (by omega)).symm
        have e2 : (decimalROM.getD (count + z) zeroDecimal).digits[n] = romDigit (count + z) n :=
          (getD_of_lt _ _ (by omega)).symm
        rw [e1, e2] at hval
        have := hbound n hn10
        have := hsingle n hn10
        omega
      have ha' : (addDecimalLazy a (decimalROM.getD (count + z) zeroDecimal)).digits =
          List.zipWith (· + ·) a.digits (decimalROM.getD (count + z) zeroDecimal).digits :=
        addDecimalLazy_digits _ _ hlen hRlen hblazy
      have ha'len : (addDecimalLazy a (decimalROM.getD (count + z) zeroDecimal)).digits.length
          = 10 := by
        rw [ha', List.length_zipWith, hlen, hRlen]
        rfl
      have ha'getD : ∀ j < 10,
          (addDecimalLazy a (decimalROM.getD (count + z) zeroDecimal)).digits.getD j 0 =
            a.digits.getD j 0 + romDigit (count + z) j := by
        intro j hj
        rw [ha']
        exact getD_zipWith_add _ _ hlen hRlen j hj
      have hstep : ∀ j, romSumFrom i count j =
          romDigit (count + z) j + romSumFrom (i * 2 ^ z * 2 % 2 ^ 32) (count + z + 1) j := by
        intro j
        have h := romSumFrom_step i count L j hL1 hL2 hcL hL31
        rw [show i * 2 ^ (31 - L + 1) = i * 2 ^ z * 2 by rw [← hzdef, pow_succ]; ring] at h
        rw [← hzdef] at h
        exact h
      obtain ⟨m, hm⟩ := hdvd
      have hdvd' : 2 ^ (count + z + 1) ∣ i * 2 ^ z * 2 % 2 ^ 32 := by
        have hd32 : (2 : Nat) ^ (count + z + 1) ∣ 2 ^ 32 := pow_dvd_pow 2 (by omega)
        rw [Nat.dvd_mod_iff hd32]
        exact ⟨m, by rw [hm]; ring⟩
      have hlt' : i * 2 ^ z * 2 % 2 ^ 32 < 2 ^ 32 := Nat.mod_lt _ (by norm_num)
      have hbound' : ∀ j < 10,
          (addDecimalLazy a (decimalROM.getD (count + z) zeroDecimal)).digits.getD j 0 +
            romSumFrom (i * 2 ^ z * 2 % 2 ^ 32) (count + z + 1) j ≤ 255 := by
        intro j hj
        rw [ha'getD j hj]
        have h1 := hbound j hj
        have h2 := hstep j
        omega
      have ih := uitodecAux_spec fuel (i * 2 ^ z * 2 % 2 ^ 32) (count + z + 1)
        (addDecimalLazy a (decimalROM.getD (count + z) zeroDecimal)) hlt' hdvd'
        (by omega) ha'len hbound'
      show (uitodecAux (fuel + 1) i count a).digits = _
      rw [uitodecAux]
      rw [if_neg hi0]
      simp only [hshift]
      rw [ih]
      apply List.map_congr_left
      intro j hj
      rw [List.mem_range] at hj
      rw [ha'getD j hj, hstep j]
      omega

/-! ### The weighted value of the accumulated ROM sums is the input -/

lemma ext_digits {a b : FullDecimal32} (h : a.digits = b.digits) : a = b := by
  cases a
  cases b
  cases h
  rfl

lemma romSumFrom_zero_count (v j : Nat) :
    romSumFrom v 0 j =
      ∑ k ∈ Finset.range 32, (if v.testBit (31 - k) then romDigit k j else 0) := by
  unfold romSumFrom
  apply Finset.sum_congr rfl
  intro k _
  have e : 0 + 31 - k = 31 - k := by omega
  rw [e]
  by_cases hb : v.testBit (31 - k)
  · rw [if_pos ⟨Nat.zero_le k, hb⟩, if_pos hb]
  · rw [if_neg (fun h => hb h.2), if_neg hb]

lemma weighted_romSumFrom (v : Nat) (hv : v < 2 ^ 32) :
    (∑ j ∈ Finset.range 10, 10 ^ (9 - j) * romSumFrom v 0 j) = v := by
  have h1 : (∑ j ∈ Finset.range 10, 10 ^ (9 - j) * romSumFrom v 0 j)
      = ∑ j ∈ Finset.range 10, ∑ k ∈ Finset.range 32,
          (if v.testBit (31 - k) then 10 ^ (9 - j) * romDigit k j else 0) := by
    apply Finset.sum_congr rfl
    intro j _
    rw [romSumFrom_zero_count, Finset.mul_sum]
    apply Finset.sum_congr rfl
    intro k _
    by_cases hb : v.testBit (31 - k)
    · rw [if_pos hb, if_pos hb]
    · rw [if_neg hb, if_neg hb, mul_zero]
  rw [h1, Finset.sum_comm]
  have h2 : ∀ k ∈ Finset.range 32,
      (∑ j ∈ Finset.range 10, if v.testBit (31 - k) then 10 ^ (9 - j) * romDigit k j else 0)
        = (if v.testBit (31 - k) then 2 ^ (31 - k) else 0) := by
    intro k hk
    rw [Finset.mem_range] at hk
    by_cases hb : v.testBit (31 - k)
    · simp only [if_pos hb]
      exact romWeighted k hk
    · simp only [if_neg hb]
      exact Finset.sum_const_zero
  rw [Finset.sum_congr rfl h2]
  have h4 : ∀ k ∈ Finset.range 32,
      (if v.testBit (31 - k) then 2 ^ (31 - k) else 0)
        = (if v.testBit (32 - 1 - k) then 2 ^ (32 - 1 - k) else 0) := by
    intro k _
    norm_num
  rw [Finset.sum_congr rfl h4,
    Finset.sum_range_reflect (fun p => if v.testBit p then 2 ^ p else 0) 32,
    sum_testBit_two_pow 32 v hv]

set_option maxHeartbeats 1600000 in
/-- The digits of `uitodec v` are the ten decimal digits of `v`. -/
theorem uitodec_digits (v : Nat) (hv : v < 2 ^ 32) : (uitodec v).digits = decDigits v := by
  obtain ⟨c0, c1, c2, c3, c4, c5, c6, c7, c8, c9⟩ := colSum_vals
  have hbound : ∀ j < 10, zeroDecimal.digits.getD j 0 + romSumFrom v 0 j ≤ 255 := by
    intro j hj
    rw [zeroDecimal_getD]
    have ha := romSumFrom_le_colSum v 0 j
    interval_cases j <;> omega
  have hpre := uitodecAux_spec 32 v 0 zeroDecimal hv (by simp) (by omega)
    (by rfl) hbound
  have hmap : (List.range 10).map (fun j => zeroDecimal.digits.getD j 0 + romSumFrom v 0 j)
      = [romSumFrom v 0 0, romSumFrom v 0 1, romSumFrom v 0 2, romSumFrom v 0 3,
         romSumFrom v 0 4, romSumFrom v 0 5, romSumFrom v 0 6, romSumFrom v 0 7,
         romSumFrom v 0 8, romSumFrom v 0 9] := by
    have hz : ∀ j ∈ List.range 10, zeroDecimal.digits.getD j 0 + romSumFrom v 0 j
        = romSumFrom v 0 j := by
      intro j _
      rw [zeroDecimal_getD, Nat.zero_add]
    rw [List.map_congr_left hz]
    simp [List.range_succ]
  have hpre' : uitodecAux 32 v 0 zeroDecimal =
      ⟨[romSumFrom v 0 0, romSumFrom v 0 1, romSumFrom v 0 2, romSumFrom v 0 3,
        romSumFrom v 0 4, romSumFrom v 0 5, romSumFrom v 0 6, romSumFrom v 0 7,
        romSumFrom v 0 8, romSumFrom v 0 9]⟩ :=
    ext_digits (by rw [hpre, hmap])
  have hcarry := carryDecimal_explicit (romSumFrom v 0 0) (romSumFrom v 0 1) (romSumFrom v 0 2)
    (romSumFrom v 0 3) (romSumFrom v 0 4) (romSumFrom v 0 5) (romSumFrom v 0 6)
    (romSumFrom v 0 7) (romSumFrom v 0 8) (romSumFrom v 0 9)
    (by rw [← c0]; exact romSumFrom_le_colSum v 0 0)
    (by rw [← c1]; exact romSumFrom_le_colSum v 0 1)
    (by rw [← c2]; exact romSumFrom_le_colSum v 0 2)
    (by rw [← c3]; exact romSumFrom_le_colSum v 0 3)
    (by rw [← c4]; exact romSumFrom_le_colSum v 0 4)
    (by rw [← c5]; exact romSumFrom_le_colSum v 0 5)
    (by rw [← c6]; exact romSumFrom_le_colSum v 0 6)
    (by rw [← c7]; exact romSumFrom_le_colSum v 0 7)
    (by rw [← c8]; exact romSumFrom_le_colSum v 0 8)
    (by rw [← c9]; exact romSumFrom_le_colSum v 0 9)
  have hval : romSumFrom v 0 0 * 1000000000 + romSumFrom v 0 1 * 100000000 +
      romSumFrom v 0 2 * 10000000 + romSumFrom v 0 3 * 1000000 + romSumFrom v 0 4 * 100000 +
      romSumFrom v 0 5 * 10000 + romSumFrom v 0 6 * 1000 + romSumFrom v 0 7 * 100 +
      romSumFrom v 0 8 * 10 + romSumFrom v 0 9 = v := by
    have hsum := weighted_romSumFrom v hv
    rw [Finset.sum_range_succ, Finset.sum_range_succ, Finset.sum_range_succ,
      Finset.sum_range_succ, Finset.sum_range_succ, Finset.sum_range_succ,
      Finset.sum_range_succ, Finset.sum_range_succ, Finset.sum_range_succ,
      Finset.sum_range_succ, Finset.sum_range_zero] at hsum
    norm_num at hsum
    omega
  show (carryDecimal (uitodecAux 32 v 0 zeroDecimal)).digits = decDigits v
  rw [hpre', hcarry, hval]

/-! ### Padded digit lists versus `Nat.digits` -/

lemma padLE_eq_digits : ∀ n v, v < 10 ^ n →
    padLE n v = Nat.digits 10 v ++ List.replicate (n - (Nat.digits 10 v).length) 0
  | 0, v, hv => by
    have hv0 : v = 0 := by omega
    subst hv0
    simp [padLE]
  | n + 1, v, hv => by
    have hstep : padLE (n + 1) v = v % 10 :: padLE n (v / 10) := by
      unfold padLE
      rw [List.range_succ_eq_map, List.map_cons, List.map_map]
      congr 1
      · norm_num
      · apply List.map_congr_left
        intro j _
        show v / 10 ^ (j + 1) % 10 = v / 10 / 10 ^ j % 10
        rw [pow_succ', Nat.div_div_eq_div_mul]
    rcases eq_or_ne v 0 with rfl | hv0
    · rw [hstep]
      have ih := padLE_eq_digits n 0 (pow_pos (by norm_num) n)
      simp only [Nat.digits_zero, List.nil_append, List.length_nil, Nat.sub_zero] at ih ⊢
      rw [Nat.zero_mod, Nat.zero_div, ih, List.replicate_succ]
    · rw [hstep, Nat.digits_def' (by norm_num : (1 : ℕ) < 10) (Nat.pos_of_ne_zero hv0)]
      have hlt : v / 10 < 10 ^ n := by
        rw [Nat.div_lt_iff_lt_mul (by norm_num)]
        calc v < 10 ^ (n + 1) := hv
          _ = 10 ^ n * 10 := pow_succ 10 n
      rw [padLE_eq_digits n (v / 10) hlt, List.cons_append, List.length_cons]
      have e : n + 1 - ((Nat.digits 10 (v / 10)).length + 1)
          = n - (Nat.digits 10 (v / 10)).length := by omega
      rw [e]

lemma decDigits_eq_reverse_padLE (v : Nat) : decDigits v = (padLE 10 v).reverse := by
  unfold decDigits padLE
  simp [List.range_succ]

lemma dropWhile_decDigits (v : Nat) (h0 : v ≠ 0) (hv : v < 10 ^ 10) :
    (decDigits v).dropWhile (fun d => d == 0) = (Nat.digits 10 v).reverse := by
  rw [decDigits_eq_reverse_padLE, padLE_eq_digits 10 v hv, List.reverse_append,
    List.reverse_replicate, List.dropWhile_append, List.dropWhile_replicate]
  simp only [beq_self_eq_true, if_true, List.isEmpty_nil]
  have hne : Nat.digits 10 v ≠ [] := Nat.digits_ne_nil_iff_ne_zero.mpr h0
  have hrevne : (Nat.digits 10 v).reverse ≠ [] := by simpa using hne
  obtain ⟨d, t, hdt⟩ := List.exists_cons_of_ne_nil hrevne
  have hdlast : d ≠ 0 := by
    have h1 : (Nat.digits 10 v).getLast? = some d := by
      rw [← List.head?_reverse, hdt]
      rfl
    rw [List.getLast?_eq_getLast (Nat.digits 10 v) hne] at h1
    have h2 : (Nat.digits 10 v).getLast hne = d := by injection h1
    rw [← h2]
    exact Nat.getLast_digit_ne_zero 10 h0
  rw [hdt, List.dropWhile_cons]
  simp [hdlast]

/-! ### The renderer on a nonzero accumulator -/

lemma fillBuffer_of_nonzero (d : FullDecimal32) (hnz : ¬ ∀ x ∈ d.digits, x = 0) :
    fillBuffer d = ((d.digits.dropWhile (fun x => x == 0)).map (fun x => x + 48) ++ [0],
      (d.digits.dropWhile (fun x => x == 0)).length) := by
  have hc : ¬ (arithLow d = 0 ∧ arithHigh d = 0) := by
    rintro ⟨hlow, hhigh⟩
    apply hnz
    intro x hx
    rw [← List.take_append_drop 8 d.digits] at hx
    rcases List.mem_append.mp hx with h | h
    · exact (natOfBytes_eq_zero _).mp hhigh x h
    · exact (natOfBytes_eq_zero _).mp hlow x h
  unfold fillBuffer
  rw [if_neg hc]

/-! ### Totality helpers: fuel irrelevance and ROM access bounds -/

lemma accum_bound (m : Nat) : ∀ j < 10, zeroDecimal.digits.getD j 0 + romSumFrom m 0 j ≤ 255 := by
  obtain ⟨c0, c1, c2, c3, c4, c5, c6, c7, c8, c9⟩ := colSum_vals
  intro j hj
  rw [zeroDecimal_getD]
  have ha := romSumFrom_le_colSum m 0 j
  interval_cases j <;> omega

lemma uitodecAux_fuel_ge (v : Nat) (hv : v < 2 ^ 32) (f : Nat) (hf : 32 ≤ f) :
    uitodecAux f v 0 zeroDecimal = uitodecAux 32 v 0 zeroDecimal := by
  apply ext_digits
  rw [uitodecAux_spec f v 0 zeroDecimal hv (by simp) (by omega) rfl (accum_bound v),
    uitodecAux_spec 32 v 0 zeroDecimal hv (by simp) (by omega) rfl (accum_bound v)]

lemma uitodecTraceAux_length_le : ∀ fuel i count, (uitodecTraceAux fuel i count).length ≤ fuel
  | 0, _, _ => by simp [uitodecTraceAux]
  | fuel + 1, i, count => by
    rw [uitodecTraceAux]
    split
    · simp
    · simp only [List.length_cons]
      have h := uitodecTraceAux_length_le fuel ((innerShift 32 i count).1 * 2 % 2 ^ 32)
        ((innerShift 32 i count).2 + 1)
      omega

lemma uitodecTraceAux_mem_le : ∀ fuel i count, i < 2 ^ 32 → 2 ^ count ∣ i →
    ∀ x ∈ uitodecTraceAux fuel i count, count ≤ x ∧ x ≤ 31
  | 0, i, count, _, _ => by simp [uitodecTraceAux]
  | fuel + 1, i, count, hi, hdvd => by
    rcases eq_or_ne i 0 with rfl | hi0
    · simp [uitodecTraceAux]
    · set L := Nat.log 2 i with hLdef
      have hL1 : 2 ^ L ≤ i := Nat.pow_log_le_self 2 hi0
      have hL2 : i < 2 ^ (L + 1) := Nat.lt_pow_succ_log_self (by norm_num) i
      have hL31 : L ≤ 31 := by
        by_contra hgt
        have h : (2 : Nat) ^ 32 ≤ 2 ^ L := Nat.pow_le_pow_right (by norm_num) (by omega)
        omega
      have hcL : count ≤ L := by
        have h1 : 2 ^ count ≤ i := Nat.le_of_dvd (Nat.pos_of_ne_zero hi0) hdvd
        by_contra hgt
        have h2 : (2 : Nat) ^ (L + 1) ≤ 2 ^ count := Nat.pow_le_pow_right (by norm_num) (by omega)
        omega
      set z := 31 - L with hzdef
      have hshift : innerShift 32 i count = (i * 2 ^ z, count + z) :=
        innerShift_spec z 32 i count (by omega) (by omega)
          (by rw [show 31 - z = L by omega]; exact hL1)
          (by rw [show 32 - z = L + 1 by omega]; exact hL2)
      obtain ⟨m, hm⟩ := hdvd
      have hdvd' : 2 ^ (count + z + 1) ∣ i * 2 ^ z * 2 % 2 ^ 32 := by
        have hd32 : (2 : Nat) ^ (count + z + 1) ∣ 2 ^ 32 := pow_dvd_pow 2 (by omega)
        rw [Nat.dvd_mod_iff hd32]
        exact ⟨m, by rw [hm]; ring⟩
      have hlt' : i * 2 ^ z * 2 % 2 ^ 32 < 2 ^ 32 := Nat.mod_lt _ (by norm_num)
      intro x hx
      rw [uitodecTraceAux, if_neg hi0] at hx
      simp only [hshift] at hx
      rcases List.mem_cons.mp hx with rfl | hx'
      · exact ⟨by omega, by omega⟩
      · have h := uitodecTraceAux_mem_le fuel (i * 2 ^ z * 2 % 2 ^ 32) (count + z + 1)
          hlt' hdvd' x hx'
        exact ⟨by omega, h.2⟩

/-! ### Weighted value helpers -/

lemma val10_decDigits (v : Nat) (hv : v < 10000000000) : val10 (decDigits v) = v := by
  unfold val10 decDigits
  simp only [List.foldl_cons, List.foldl_nil]
  omega

lemma val10_explicit (a0 a1 a2 a3 a4 a5 a6 a7 a8 a9 : Nat) :
    val10 [a0, a1, a2, a3, a4, a5, a6, a7, a8, a9] =
      a0 * 1000000000 + a1 * 100000000 + a2 * 10000000 + a3 * 1000000 + a4 * 100000 +
        a5 * 10000 + a6 * 1000 + a7 * 100 + a8 * 10 + a9 := by
  unfold val10
  simp only [List.foldl_cons, List.foldl_nil]
  ring

lemma dropWhile_head_false {p : Nat → Bool} :
    ∀ (l : List Nat) d t, l.dropWhile p = d :: t → p d = false
  | [], d, t, h => by simp at h
  | x :: xs, d, t, h => by
    rw [List.dropWhile_cons] at h
    cases hpx : p x
    · rw [hpx] at h
      simp only [Bool.false_eq_true, if_false] at h
      cases h
      exact hpx
    · rw [hpx] at h
      simp only [if_true] at h
      exact dropWhile_head_false xs d t h

/-! ## Claim theorems -/

set_option maxHeartbeats 4000000 in
/-- C1: for every unsigned 32-bit value `v`, rendering the encoded accumulator
(`fillBuffer` applied to `uitodec v`) writes exactly the canonical decimal
string of `v` (no leading zeros, `"0"` for zero) followed by the terminator,
and returns the length of that string. -/
theorem claim_render_encode_canonical (v : Nat) (hv : v < 2 ^ 32) :
    (fillBuffer (uitodec v)).1 = canonicalDecimal v ++ [0] ∧
      (fillBuffer (uitodec v)).2 = (canonicalDecimal v).length := by
  rcases eq_or_ne v 0 with rfl | hv0
  · exact ⟨by decide, by decide⟩
  · have hdig := uitodec_digits v hv
    have hv10 : v < 10 ^ 10 := lt_of_lt_of_le hv (by norm_num)
    have hvlit : v < 10000000000 := lt_of_lt_of_le hv (by norm_num)
    have hnz : ¬ ∀ x ∈ (uitodec v).digits, x = 0 := by
      rw [hdig]
      intro hall
      simp only [decDigits, List.mem_cons, List.not_mem_nil, or_false, forall_eq_or_imp,
        forall_eq] at hall
      apply hv0
      omega
    have hfb := fillBuffer_of_nonzero (uitodec v) hnz
    rw [hfb, hdig, dropWhile_decDigits v hv0 hv10]
    rw [canonicalDecimal, if_neg hv0]
    exact ⟨rfl, by simp⟩

/-- Witness for C1 at the concrete input 123456789. -/
theorem claim_render_encode_canonical_witness :
    123456789 < 2 ^ 32 ∧
      ((fillBuffer (uitodec 123456789)).1 = canonicalDecimal 123456789 ++ [0] ∧
        (fillBuffer (uitodec 123456789)).2 = (canonicalDecimal 123456789).length) :=
  ⟨by norm_num, claim_render_encode_canonical 123456789 (by norm_num)⟩

/-- C2: during the lazy accumulation phase of `uitodec v`, after processing any
prefix of the most-significant-first bit scan (the prefix handling the bits of
`v` at positions `≥ t`, i.e. the input with its low `t` bits cleared), each of
the ten digit slots holds exactly the unwrapped sum `romSumFrom` of the digits
of the selected ROM entries — an equality that would fail if any byte addition
had carried across a slot boundary of the two machine words — and that sum is
at most 255.  (The bound is specific to this ROM: the per-slot column sums are
at most 155.) -/
theorem claim_lazy_no_overflow (v : Nat) (hv : v < 2 ^ 32) (t : Nat) :
    (uitodecAux 32 (v / 2 ^ t * 2 ^ t) 0 zeroDecimal).digits
        = (List.range 10).map (fun j => romSumFrom (v / 2 ^ t * 2 ^ t) 0 j) ∧
      ∀ j < 10, romSumFrom (v / 2 ^ t * 2 ^ t) 0 j ≤ 255 := by
  have hm : v / 2 ^ t * 2 ^ t < 2 ^ 32 :=
    lt_of_le_of_lt (Nat.div_mul_le_self v (2 ^ t)) hv
  constructor
  · have hpre := uitodecAux_spec 32 (v / 2 ^ t * 2 ^ t) 0 zeroDecimal hm (by simp) (by omega)
      rfl (accum_bound _)
    rw [hpre]
    apply List.map_congr_left
    intro j _
    rw [zeroDecimal_getD, Nat.zero_add]
  · intro j hj
    have h := accum_bound (v / 2 ^ t * 2 ^ t) j hj
    rw [zeroDecimal_getD] at h
    omega

set_option maxHeartbeats 4000000 in
/-- Witness for C2 at `v = 4294967295` with the low 16 bits cleared. -/
theorem claim_lazy_no_overflow_witness :
    4294967295 < 2 ^ 32 ∧
      ((uitodecAux 32 (4294967295 / 2 ^ 16 * 2 ^ 16) 0 zeroDecimal).digits
          = (List.range 10).map (fun j => romSumFrom (4294967295 / 2 ^ 16 * 2 ^ 16) 0 j) ∧
        ∀ j < 10, romSumFrom (4294967295 / 2 ^ 16 * 2 ^ 16) 0 j ≤ 255) :=
  ⟨by norm_num, claim_lazy_no_overflow 4294967295 (by norm_num) 16⟩

set_option maxHeartbeats 4000000 in
/-- C3 counterexample: an accumulator with byte-valued slots whose weighted
value 2560000000 is at most 4294967295, yet `carryDecimal` wraps the slot-2
byte and returns the all-zero accumulator: the weighted value is not
preserved, so the "any accumulator whose weighted value is at most
4294967295" hypothesis of the claim is not sufficient. -/
theorem claim_carry_value_counterexample :
    (∀ j < 10, (FullDecimal32.mk [0, 0, 255, 10, 0, 0, 0, 0, 0, 0]).digits.getD j 0 ≤ 255) ∧
      val10 (FullDecimal32.mk [0, 0, 255, 10, 0, 0, 0, 0, 0, 0]).digits = 2560000000 ∧
      2560000000 ≤ 4294967295 ∧
      (carryDecimal (FullDecimal32.mk [0, 0, 255, 10, 0, 0, 0, 0, 0, 0])).digits =
        List.replicate 10 0 ∧
      val10 (carryDecimal (FullDecimal32.mk [0, 0, 255, 10, 0, 0, 0, 0, 0, 0])).digits ≠
        2560000000 := by
  decide

set_option maxHeartbeats 4000000 in
/-- C3 amended: for every accumulator actually arising from lazy accumulation
of ROM entries of a 32-bit input — slot `j` bounded by the ROM column sum
`colSum j` — `carryDecimal` (which processes slots 9 down to 1, never dividing
slot 0) returns an accumulator with every slot in `[0, 9]` and the same
weighted value. -/
theorem claim_carry_normalizes (d : FullDecimal32) (hlen : d.digits.length = 10)
    (hb : ∀ j < 10, d.digits.getD j 0 ≤ colSum j) :
    (∀ j < 10, (carryDecimal d).digits.getD j 0 ≤ 9) ∧
      val10 (carryDecimal d).digits = val10 d.digits := by
  obtain ⟨c0, c1, c2, c3, c4, c5, c6, c7, c8, c9⟩ := colSum_vals
  obtain ⟨l⟩ := d
  simp only [digits_mk] at hlen hb ⊢
  rcases l with _ | ⟨a0, l⟩; · simp at hlen
  rcases l with _ | ⟨a1, l⟩; · simp at hlen
  rcases l with _ | ⟨a2, l⟩; · simp at hlen
  rcases l with _ | ⟨a3, l⟩; · simp at hlen
  rcases l with _ | ⟨a4, l⟩; · simp at hlen
  rcases l with _ | ⟨a5, l⟩; · simp at hlen
  rcases l with _ | ⟨a6, l⟩; · simp at hlen
  rcases l with _ | ⟨a7, l⟩; · simp at hlen
  rcases l with _ | ⟨a8, l⟩; · simp at hlen
  rcases l with _ | ⟨a9, l⟩; · simp at hlen
  rcases l with _ | ⟨a10, l⟩
  swap; · simp at hlen
  have h0 : a0 ≤ 3 := by have := hb 0 (by norm_num); simpa [c0] using this
  have h1 : a1 ≤ 9 := by have := hb 1 (by norm_num); simpa [c1] using this
  have h2 : a2 ≤ 33 := by have := hb 2 (by norm_num); simpa [c2] using this
  have h3 : a3 ≤ 59 := by have := hb 3 (by norm_num); simpa [c3] using this
  have h4 : a4 ≤ 50 := by have := hb 4 (by norm_num); simpa [c4] using this
  have h5 : a5 ≤ 86 := by have := hb 5 (by norm_num); simpa [c5] using this
  have h6 : a6 ≤ 97 := by have := hb 6 (by norm_num); simpa [c6] using this
  have h7 : a7 ≤ 90 := by have := hb 7 (by norm_num); simpa [c7] using this
  have h8 : a8 ≤ 114 := by have := hb 8 (by norm_num); simpa [c8] using this
  have h9 : a9 ≤ 155 := by have := hb 9 (by norm_num); simpa [c9] using this
  have hcarry := carryDecimal_explicit a0 a1 a2 a3 a4 a5 a6 a7 a8 a9
    h0 h1 h2 h3 h4 h5 h6 h7 h8 h9
  rw [hcarry]
  constructor
  · intro j hj
    interval_cases j <;> simp [decDigits] <;> omega
  · rw [val10_decDigits _ (by omega), val10_explicit]

set_option maxHeartbeats 4000000 in
/-- Witness for the amended C3 at the slot-wise maximal accumulator. -/
theorem claim_carry_normalizes_witness :
    (FullDecimal32.mk [3, 9, 33, 59, 50, 86, 97, 90, 114, 155]).digits.length = 10 ∧
      (∀ j < 10, (FullDecimal32.mk [3, 9, 33, 59, 50, 86, 97, 90, 114, 155]).digits.getD j 0
        ≤ colSum j) ∧
      ((∀ j < 10,
          (carryDecimal (FullDecimal32.mk [3, 9, 33, 59, 50, 86, 97, 90, 114, 155])).digits.getD
            j 0 ≤ 9) ∧
        val10 (carryDecimal (FullDecimal32.mk [3, 9, 33, 59, 50, 86, 97, 90, 114, 155])).digits =
          val10 (FullDecimal32.mk [3, 9, 33, 59, 50, 86, 97, 90, 114, 155]).digits) :=
  ⟨by decide, by decide,
    claim_carry_normalizes (FullDecimal32.mk [3, 9, 33, 59, 50, 86, 97, 90, 114, 155])
      (by decide) (by decide)⟩

set_option maxHeartbeats 4000000 in
/-- C4: `decimalROM` has 32 entries; entry `k` is a 10-slot array of digits in
`[0, 9]`, most significant first, whose weighted value is `2 ^ (31 - k)`. -/
theorem claim_rom_entries : decimalROM.length = 32 ∧ ∀ k < 32,
    (decimalROM.getD k zeroDecimal).digits.length = 10 ∧
      (∀ j < 10, (decimalROM.getD k zeroDecimal).digits.getD j 0 ≤ 9) ∧
      val10 (decimalROM.getD k zeroDecimal).digits = 2 ^ (31 - k) := by
  decide

/-- Witness for C4 at index 5 (the entry for `2 ^ 26`). -/
theorem claim_rom_entries_witness :
    5 < 32 ∧ ((decimalROM.getD 5 zeroDecimal).digits.length = 10 ∧
      (∀ j < 10, (decimalROM.getD 5 zeroDecimal).digits.getD j 0 ≤ 9) ∧
      val10 (decimalROM.getD 5 zeroDecimal).digits = 2 ^ (31 - 5)) :=
  ⟨by norm_num, claim_rom_entries.2 5 (by norm_num)⟩

set_option maxHeartbeats 4000000 in
/-- C5: both carry tables have exactly 256 entries, and for every byte value
`b` the tables hold `b / 10` and `b % 10`. -/
theorem claim_carry_tables : quotients.length = 256 ∧ remainders.length = 256 ∧
    ∀ b < 256, quotients.getD b 0 = b / 10 ∧ remainders.getD b 0 = b % 10 := by
  decide

/-- Witness for C5 at byte value 137. -/
theorem claim_carry_tables_witness :
    137 < 256 ∧ (quotients.getD 137 0 = 137 / 10 ∧ remainders.getD 137 0 = 137 % 10) :=
  ⟨by norm_num, claim_carry_tables.2.2 137 (by norm_num)⟩

set_option maxHeartbeats 4000000 in
/-- C6: `uitodec 0` is the all-zero accumulator, and `fillBuffer` of it writes
exactly the character `'0'` followed by the terminator and returns length 1. -/
theorem claim_encode_zero : (uitodec 0).digits = List.replicate 10 0 ∧
    fillBuffer (uitodec 0) = ([48, 0], 1) := by
  decide

/-- C7: on a happy, not-all-zero accumulator, `fillBuffer` skips the leading
zero slots, emits the remaining slots as ASCII digits followed by the
terminator, returns 10 minus the number of skipped leading zeros (between 1
and 10), and the first emitted character is never `'0'`. -/
theorem claim_render_skips_leading_zeros (l : List Nat) (hlen : l.length = 10)
    (hd : ∀ x ∈ l, x ≤ 9) (hnz : ¬ ∀ x ∈ l, x = 0) :
    fillBuffer ⟨l⟩ = ((l.dropWhile (fun x => x == 0)).map (fun x => x + 48) ++ [0],
        10 - (l.takeWhile (fun x => x == 0)).length) ∧
      1 ≤ 10 - (l.takeWhile (fun x => x == 0)).length ∧
      10 - (l.takeWhile (fun x => x == 0)).length ≤ 10 ∧
      (fillBuffer ⟨l⟩).1.getD 0 0 ≠ 48 := by
  have hfb := fillBuffer_of_nonzero ⟨l⟩ (by simpa using hnz)
  simp only [digits_mk] at hfb
  have hsplit := List.takeWhile_append_dropWhile (p := fun x => x == 0) (l := l)
  have hlensplit : (l.takeWhile (fun x => x == 0)).length
      + (l.dropWhile (fun x => x == 0)).length = 10 := by
    rw [← List.length_append, hsplit, hlen]
  have hdnil : l.dropWhile (fun x => x == 0) ≠ [] := by
    intro hnil
    apply hnz
    intro x hx
    have hmem : x ∈ l.takeWhile (fun x => x == 0) := by
      rw [← hsplit] at hx
      rcases List.mem_append.mp hx with h | h
      · exact h
      · rw [hnil] at h
        simp at h
    have := List.mem_takeWhile_imp hmem
    simpa using this
  obtain ⟨d, t, hdt⟩ := List.exists_cons_of_ne_nil hdnil
  have hd0 : d ≠ 0 := by
    have := dropWhile_head_false l d t hdt
    simpa using this
  refine ⟨?_, ?_, ?_, ?_⟩
  · rw [hfb]
    have e : (l.dropWhile (fun x => x == 0)).length
        = 10 - (l.takeWhile (fun x => x == 0)).length := by omega
    rw [e]
  · have hpos : 0 < (l.dropWhile (fun x => x == 0)).length := by
      rw [hdt]
      simp
    omega
  · omega
  · rw [hfb, hdt]
    simp only [List.map_cons, List.cons_append, List.getD_cons_zero]
    omega

set_option maxHeartbeats 4000000 in
/-- Witness for C7 at the accumulator holding 42. -/
theorem claim_render_skips_leading_zeros_witness :
    ([0, 0, 0, 0, 0, 0, 0, 0, 4, 2] : List Nat).length = 10 ∧
      (∀ x ∈ ([0, 0, 0, 0, 0, 0, 0, 0, 4, 2] : List Nat), x ≤ 9) ∧
      (¬ ∀ x ∈ ([0, 0, 0, 0, 0, 0, 0, 0, 4, 2] : List Nat), x = 0) ∧
      (fillBuffer ⟨[0, 0, 0, 0, 0, 0, 0, 0, 4, 2]⟩ =
          ((([0, 0, 0, 0, 0, 0, 0, 0, 4, 2] : List Nat).dropWhile
              (fun x => x == 0)).map (fun x => x + 48) ++ [0],
            10 - (([0, 0, 0, 0, 0, 0, 0, 0, 4, 2] : List Nat).takeWhile
              (fun x => x == 0)).length) ∧
        1 ≤ 10 - (([0, 0, 0, 0, 0, 0, 0, 0, 4, 2] : List Nat).takeWhile
          (fun x => x == 0)).length ∧
        10 - (([0, 0, 0, 0, 0, 0, 0, 0, 4, 2] : List Nat).takeWhile
          (fun x => x == 0)).length ≤ 10 ∧
        (fillBuffer ⟨[0, 0, 0, 0, 0, 0, 0, 0, 4, 2]⟩).1.getD 0 0 ≠ 48) :=
  ⟨by decide, by decide, by decide,
    claim_render_skips_leading_zeros [0, 0, 0, 0, 0, 0, 0, 0, 4, 2]
      (by decide) (by decide) (by decide)⟩

set_option maxHeartbeats 4000000 in
/-- C8: for every bit position `k`, encoding `2 ^ k` reproduces exactly the
precomputed ROM entry `decimalROM[31 - k]`, and `carryDecimal` on that
already-happy entry is the identity. -/
theorem claim_powers_reproduce_rom : ∀ k < 32,
    uitodec (2 ^ k) = decimalROM.getD (31 - k) zeroDecimal ∧
      carryDecimal (decimalROM.getD (31 - k) zeroDecimal) =
        decimalROM.getD (31 - k) zeroDecimal := by
  decide

/-- Witness for C8 at `k = 20`. -/
theorem claim_powers_reproduce_rom_witness :
    20 < 32 ∧ (uitodec (2 ^ 20) = decimalROM.getD (31 - 20) zeroDecimal ∧
      carryDecimal (decimalROM.getD (31 - 20) zeroDecimal) =
        decimalROM.getD (31 - 20) zeroDecimal) :=
  ⟨by norm_num, claim_powers_reproduce_rom 20 (by norm_num)⟩

/-- C9: when no slot-wise sum exceeds 255, the two-word `addDecimalLazy`
(one 64-bit add over the upper eight slots, one 16-bit add over the lower
two) returns exactly the same digits as ten independent byte additions. -/
theorem claim_lazy_equals_slotwise (d1 d2 : FullDecimal32) (h1 : d1.digits.length = 10)
    (h2 : d2.digits.length = 10)
    (hb : ∀ x ∈ List.zipWith (· + ·) d1.digits d2.digits, x ≤ 255) :
    addDecimalLazy d1 d2 = addDecimalSlotwise d1 d2 := by
  apply ext_digits
  rw [addDecimalLazy_digits d1 d2 h1 h2 hb]
  show _ = (addDecimalSlotwise d1 d2).digits
  unfold addDecimalSlotwise
  rw [digits_mk]
  apply List.ext_getElem
  · rw [List.length_zipWith, List.length_zipWith]
  · intro n hn1 hn2
    rw [List.getElem_zipWith, List.getElem_zipWith]
    have hlen1 : n < d1.digits.length := by rw [List.length_zipWith] at hn1; omega
    have hlen2 : n < d2.digits.length := by rw [List.length_zipWith] at hn1; omega
    have hmem : d1.digits[n] + d2.digits[n] ≤ 255 := by
      apply hb
      exact List.mem_iff_getElem.mpr ⟨n, hn1, by rw [List.getElem_zipWith]⟩
    omega

set_option maxHeartbeats 4000000 in
/-- Witness for C9 adding the accumulators for 32 and 16. -/
theorem claim_lazy_equals_slotwise_witness :
    (FullDecimal32.mk [0, 0, 0, 0, 0, 0, 0, 0, 3, 2]).digits.length = 10 ∧
      (FullDecimal32.mk [0, 0, 0, 0, 0, 0, 0, 0, 1, 6]).digits.length = 10 ∧
      (∀ x ∈ List.zipWith (· + ·) (FullDecimal32.mk [0, 0, 0, 0, 0, 0, 0, 0, 3, 2]).digits
        (FullDecimal32.mk [0, 0, 0, 0, 0, 0, 0, 0, 1, 6]).digits, x ≤ 255) ∧
      addDecimalLazy (FullDecimal32.mk [0, 0, 0, 0, 0, 0, 0, 0, 3, 2])
          (FullDecimal32.mk [0, 0, 0, 0, 0, 0, 0, 0, 1, 6]) =
        addDecimalSlotwise (FullDecimal32.mk [0, 0, 0, 0, 0, 0, 0, 0, 3, 2])
          (FullDecimal32.mk [0, 0, 0, 0, 0, 0, 0, 0, 1, 6]) :=
  ⟨by decide, by decide, by decide,
    claim_lazy_equals_slotwise _ _ (by decide) (by decide) (by decide)⟩

/-- C10: `uitodec` is total on 32-bit inputs: fuel 32 already suffices for the
bit-scanning loops (any larger fuel gives the same result), the scan performs
at most 32 ROM accesses, and every accessed ROM index is at most 31, hence in
bounds for the 32-entry `decimalROM`. -/
theorem claim_uitodec_total (v : Nat) (hv : v < 2 ^ 32) :
    (∀ f, 32 ≤ f → uitodecAux f v 0 zeroDecimal = uitodecAux 32 v 0 zeroDecimal) ∧
      (uitodecTraceAux 32 v 0).length ≤ 32 ∧
      ∀ x ∈ uitodecTraceAux 32 v 0, x ≤ 31 := by
  refine ⟨fun f hf => uitodecAux_fuel_ge v hv f hf, uitodecTraceAux_length_le 32 v 0, ?_⟩
  intro x hx
  exact (uitodecTraceAux_mem_le 32 v 0 hv (by simp) x hx).2

/-- Witness for C10 at the all-ones input. -/
theorem claim_uitodec_total_witness :
    4294967295 < 2 ^ 32 ∧
      ((∀ f, 32 ≤ f →
          uitodecAux f 4294967295 0 zeroDecimal = uitodecAux 32 4294967295 0 zeroDecimal) ∧
        (uitodecTraceAux 32 4294967295 0).length ≤ 32 ∧
        ∀ x ∈ uitodecTraceAux 32 4294967295 0, x ≤ 31) :=
  ⟨by norm_num, claim_uitodec_total 4294967295 (by norm_num)⟩

end Toothpaste
